import Mathlib

/-
Verification of the line-handling module of a diff tool (lines.rs).

Text buffers are modelled as lists of characters. Machine integers
(usize) are modelled as Nat; the isize arithmetic in add_context is
modelled with Int, and the two usize casts are modelled with Int.toNat.
Fallible operations (the usize subtraction in max_line, which underflows
on an input with no lines) return Option.
-/

/-- A range in a string, relative to the string start.
Field start is inclusive, field end is exclusive. -/
structure AbsoluteRange where
  start : Nat
  «end» : Nat
  deriving DecidableEq

/-- A position in a single line of a string; both fields zero-indexed.
Line numbers are modelled as plain Nat. -/
structure LinePosition where
  line : Nat
  column : Nat
  deriving DecidableEq

/-- A range within a single line of a string; all fields zero-indexed. -/
structure LineRange where
  line : Nat
  start : Nat
  «end» : Nat
  deriving DecidableEq

/-- A struct for converting absolute string positions to line-relative
positions: the start positions of all the lines of the string. -/
structure NewlinePositions where
  positions : List Nat
  deriving DecidableEq

/-- A changed region of this text plus the corresponding line in the
other text being compared (external type from the comparison engine). -/
structure Change where
  range : AbsoluteRange
  opposite_line : Nat
  deriving DecidableEq

/-- One line to display plus its counterpart in the other text. -/
structure MatchedLine where
  line : Nat
  opposite_line : Nat
  deriving DecidableEq

/-- The end offsets (index just past the newline) of every newline
character of the buffer, scanning from index i. Models the regex
find_iter over the "newline" pattern mapped to match end offsets. -/
def newlineEnds : List Char → Nat → List Nat
  | [], _ => []
  | c :: rest, i =>
    if c = '\n' then (i + 1) :: newlineEnds rest (i + 1)
    else newlineEnds rest (i + 1)

/-- NewlinePositions construction: a 0 entry for the implicit first
line, followed by the end offset of each newline. -/
def NewlinePositions.«from» (s : List Char) : NewlinePositions :=
  ⟨0 :: newlineEnds s 0⟩

/-- The reverse scan of from_offset: checks indices n-1, n-2, ..., 0 and
returns the first (largest) index whose recorded position is at most the
offset. Returns none when the loop finishes without a hit, which is the
fallback branch of the source. -/
def fromOffsetLoop (positions : List Nat) (offset : Nat) : Nat → Option LinePosition
  | 0 => none
  | n + 1 =>
    if positions.getD n 0 ≤ offset then
      some ⟨n, offset - positions.getD n 0⟩
    else
      fromOffsetLoop positions offset n

/-- Convert an absolute offset to a line-relative position: reverse scan
over the position table, with the fallback value line 0, column offset
when the scan finds nothing. -/
def NewlinePositions.from_offset (np : NewlinePositions) (offset : Nat) : LinePosition :=
  (fromOffsetLoop np.positions offset np.positions.length).getD ⟨0, offset⟩

/-- The length of line l as computed in split_line_boundaries: the
offset of the terminating newline of the line (the entry for line l+1
minus one) minus the start offset of the line. -/
def lineLength (positions : List Nat) (l : Nat) : Nat :=
  positions.getD (l + 1) 0 - 1 - positions.getD l 0

/-- Given a range within a string, split it into ranges where each
range is on a single line. -/
def NewlinePositions.split_line_boundaries (np : NewlinePositions)
    (start e : LinePosition) : List LineRange :=
  if start.line = e.line then
    [⟨start.line, start.column, e.column⟩]
  else
    (⟨start.line, start.column, lineLength np.positions start.line⟩ ::
      (List.range' (start.line + 1) (e.line - (start.line + 1))).map
        (fun ln => ⟨ln, 0, lineLength np.positions ln⟩)) ++
      [⟨e.line, 0, e.column⟩]

/-- Convert absolute string ranges to line-relative ranges. If an
absolute range crosses a newline, split it into multiple line-relative
ranges. -/
def NewlinePositions.from_ranges (np : NewlinePositions)
    (ranges : List AbsoluteRange) : List LineRange :=
  ranges.flatMap (fun r =>
    np.split_line_boundaries (np.from_offset r.start) (np.from_offset r.«end»))

/-- One step of the scan of relevant_lines: the seen set (modelled as a
list of line numbers) and the result accumulator, updated for one
line-relative range of the current change. -/
def relevantStep (opposite_line : Nat) (acc : List Nat × List MatchedLine)
    (range : LineRange) : List Nat × List MatchedLine :=
  if range.line ∈ acc.1 then acc
  else (range.line :: acc.1, acc.2 ++ [⟨range.line, opposite_line⟩])

/-- Given a slice of changes, return the unique lines that they land
on, plus their corresponding line in the other file. -/
def relevant_lines (changes : List Change) (s : List Char) : List MatchedLine :=
  let newlines := NewlinePositions.«from» s
  (changes.foldl (fun acc change =>
    (newlines.from_ranges [change.range]).foldl
      (relevantStep change.opposite_line) acc) ([], [])).2

/-- The body of the inner loop of add_context: emit line i with its
computed opposite line, except when a most recently emitted entry
exists and i is at most its line (the is_new flag of the source). -/
def pushIfNew (opposite_offset : Int) (result : List MatchedLine) (i : Nat) :
    List MatchedLine :=
  match result.getLast? with
  | some last_line =>
    if last_line.line < i then
      result ++ [⟨i, (max ((i : Int) + opposite_offset) 0).toNat⟩]
    else
      result
  | none => result ++ [⟨i, (max ((i : Int) + opposite_offset) 0).toNat⟩]

/-- The context window of one matched line: the line numbers from
max(0, line - context) up to min(line + context, max_line), inclusive,
in ascending order. The lower bound is isize arithmetic clamped at 0
and cast back to usize. -/
def contextWindow (context max_line : Nat) (m : MatchedLine) : List Nat :=
  List.range' ((max 0 ((m.line : Int) - (context : Int))).toNat)
    (min (m.line + context) max_line + 1 -
      (max 0 ((m.line : Int) - (context : Int))).toNat)

/-- Expand each matched line into its context window, walking each
window in ascending order and skipping lines at or before the most
recently emitted line. The opposite line of an emitted line i is
max(i + opposite_offset, 0) cast to usize, with opposite_offset the
signed difference of the matched pair. -/
def add_context (lines : List MatchedLine) (context : Nat) (max_line : Nat) :
    List MatchedLine :=
  lines.foldl (fun result m =>
    (contextWindow context max_line m).foldl
      (pushIfNew ((m.opposite_line : Int) - (m.line : Int))) result) []

/-- Split a character list at every newline; the newline characters are
dropped and the (possibly empty) final segment is kept. The result is
always nonempty. -/
def splitNl : List Char → List (List Char)
  | [] => [[]]
  | c :: rest =>
    if c = '\n' then [] :: splitNl rest
    else
      match splitNl rest with
      | [] => [[c]]
      | h :: t => (c :: h) :: t

/-- Drop one trailing carriage return, if present. -/
def stripCR (l : List Char) : List Char :=
  match l.getLast? with
  | some c => if c = '\r' then l.dropLast else l
  | none => l

/-- The lines of a string in the sense of the Rust standard library:
segments terminated by a newline lose the newline and one trailing
carriage return; a final unterminated nonempty segment is kept as is;
an empty final segment (the string is empty or ends with a newline)
produces no line. -/
def rustLines (s : List Char) : List (List Char) :=
  (splitNl s).dropLast.map stripCR ++
    (match (splitNl s).getLast? with
     | some [] => []
     | some l => [l]
     | none => [])

/-- The last valid line number of the buffer: the number of lines minus
one. The subtraction is a usize subtraction that underflows when the
buffer has no lines, modelled by none. -/
def max_line (s : List Char) : Option Nat :=
  match (rustLines s).length with
  | 0 => none
  | n + 1 => some n

/-- Truncate a long line to exactly line_length characters, or right-pad
a short line with spaces to exactly line_length characters. -/
def fitLine (line_length : Nat) (line : List Char) : List Char :=
  if line.length > line_length then
    line.take line_length
  else
    line ++ List.replicate (line_length - line.length) ' '

/-- Ensure that every line of s has this length: pad short lines,
truncate long lines, and terminate every output line with a newline. -/
def enforce_length (s : List Char) (line_length : Nat) : List Char :=
  (rustLines s).foldl
    (fun result line => result ++ fitLine line_length line ++ ['\n']) []

/-- First-occurrence deduplication by line number, with an initial seen
set: keeps each matched line whose line number has not been seen
before, scanning left to right. -/
def firstOccByLine : List MatchedLine → List Nat → List MatchedLine
  | [], _ => []
  | m :: ms, seen =>
    if m.line ∈ seen then firstOccByLine ms seen
    else m :: firstOccByLine ms (m.line :: seen)

/-- The seen set after scanning a list of matched lines. -/
def seenAfter : List MatchedLine → List Nat → List Nat
  | [], seen => seen
  | m :: ms, seen =>
    if m.line ∈ seen then seenAfter ms seen
    else seenAfter ms (m.line :: seen)

/- Lemmas about the offset-to-line reverse scan. -/

theorem fromOffsetLoop_line_le (p : List Nat) (o : Nat) :
    ∀ fuel, ((fromOffsetLoop p o fuel).getD ⟨0, o⟩).line ≤ fuel := by
  intro fuel
  induction fuel with
  | zero => simp [fromOffsetLoop]
  | succ n ih =>
    simp only [fromOffsetLoop]
    split
    · simp
    · exact le_trans ih (Nat.le_succ n)

theorem fromOffsetLoop_line_mono (p : List Nat) {o1 o2 : Nat} (h : o1 ≤ o2) :
    ∀ fuel, ((fromOffsetLoop p o1 fuel).getD ⟨0, o1⟩).line ≤
      ((fromOffsetLoop p o2 fuel).getD ⟨0, o2⟩).line := by
  intro fuel
  induction fuel with
  | zero => simp [fromOffsetLoop]
  | succ n ih =>
    simp only [fromOffsetLoop]
    by_cases h2 : p.getD n 0 ≤ o2
    · rw [if_pos h2]
      by_cases h1 : p.getD n 0 ≤ o1
      · rw [if_pos h1]
        simp
      · rw [if_neg h1]
        simpa using fromOffsetLoop_line_le p o1 n
    · rw [if_neg h2, if_neg (fun h1 => h2 (le_trans h1 h))]
      exact ih

/-- Claim C1: offset-to-line lookup is monotonic. For every text buffer
and every pair of offsets o1 <= o2, the line number returned by
from_offset for o1 is at most the line number returned for o2. -/
theorem claim_C1_from_offset_monotonic (s : List Char) (o1 o2 : Nat) (h : o1 ≤ o2) :
    ((NewlinePositions.«from» s).from_offset o1).line ≤
      ((NewlinePositions.«from» s).from_offset o2).line :=
  fromOffsetLoop_line_mono (NewlinePositions.«from» s).positions h
    (NewlinePositions.«from» s).positions.length

theorem claim_C1_witness :
    ((NewlinePositions.«from» "abc\nbar".toList).from_offset 2).line ≤
      ((NewlinePositions.«from» "abc\nbar".toList).from_offset 5).line :=
  claim_C1_from_offset_monotonic "abc\nbar".toList 2 5 (by decide)

/- Lemmas about the newline-position table. -/

theorem mem_newlineEnds_lt {s : List Char} {x : Nat} :
    ∀ {i : Nat}, x ∈ newlineEnds s i → i < x := by
  induction s with
  | nil => intro i h; simp [newlineEnds] at h
  | cons c rest ih =>
    intro i h
    rw [newlineEnds] at h
    split at h
    · rcases List.mem_cons.mp h with h1 | h1
      · omega
      · have := ih h1; omega
    · have := ih h; omega

theorem newlineEnds_pairwise (s : List Char) :
    ∀ i : Nat, (newlineEnds s i).Pairwise (· < ·) := by
  induction s with
  | nil => intro i; simp [newlineEnds]
  | cons c rest ih =>
    intro i
    rw [newlineEnds]
    split
    · exact List.pairwise_cons.mpr
        ⟨fun x hx => mem_newlineEnds_lt hx, ih (i + 1)⟩
    · exact ih (i + 1)

theorem newlineEnds_length (s : List Char) :
    ∀ i : Nat, (newlineEnds s i).length = s.count '\n' := by
  induction s with
  | nil => intro i; simp [newlineEnds]
  | cons c rest ih =>
    intro i
    rw [newlineEnds]
    by_cases hc : c = '\n'
    · subst hc
      simp [ih, List.count_cons]
    · rw [if_neg hc]
      simp [ih, List.count_cons, hc]

theorem fromOffsetLoop_isSome (p : List Nat) (o : Nat) (h0 : p.getD 0 0 ≤ o) :
    ∀ n, (fromOffsetLoop p o (n + 1)).isSome = true := by
  intro n
  induction n with
  | zero =>
    simp only [fromOffsetLoop]
    rw [if_pos h0]
    rfl
  | succ k ih =>
    simp only [fromOffsetLoop]
    split
    · rfl
    · exact ih

/-- Claim C9: the line-start table has a 0 first entry, is strictly
increasing, has one entry per line (one more than the newline count),
and consequently the reverse scan of from_offset always finds a valid
index, so the fallback branch (modelled by the none result of
fromOffsetLoop) is never taken. -/
theorem claim_C9_line_index_invariants (s : List Char) (offset : Nat) :
    (NewlinePositions.«from» s).positions.head? = some 0 ∧
    (NewlinePositions.«from» s).positions.Pairwise (· < ·) ∧
    (NewlinePositions.«from» s).positions.length = s.count '\n' + 1 ∧
    (fromOffsetLoop (NewlinePositions.«from» s).positions offset
      (NewlinePositions.«from» s).positions.length).isSome = true := by
  refine ⟨rfl, ?_, ?_, ?_⟩
  · exact List.pairwise_cons.mpr
      ⟨fun x hx => mem_newlineEnds_lt hx, newlineEnds_pairwise s 0⟩
  · simp [NewlinePositions.«from», newlineEnds_length]
  · have hlen : (NewlinePositions.«from» s).positions.length =
        (newlineEnds s 0).length + 1 := by
      simp [NewlinePositions.«from»]
    rw [hlen]
    exact fromOffsetLoop_isSome _ offset (by simp [NewlinePositions.«from»]) _

/- Lemmas about splitNl and rustLines. -/

theorem splitNl_ne_nil (s : List Char) : splitNl s ≠ [] := by
  cases s with
  | nil => simp [splitNl]
  | cons c rest =>
    rw [splitNl]
    split
    · simp
    · split <;> simp

theorem rustLines_ne_nil (s : List Char) (hs : s ≠ []) : rustLines s ≠ [] := by
  cases s with
  | nil => exact absurd rfl hs
  | cons c rest =>
    rw [rustLines]
    by_cases hc : c = '\n'
    · subst hc
      rw [splitNl]
      rw [if_pos rfl]
      rcases hsp : splitNl rest with _ | ⟨h0, t0⟩
      · exact absurd hsp (splitNl_ne_nil rest)
      · intro hcontra
        rcases List.append_eq_nil.mp hcontra with ⟨hl, _⟩
        simp at hl
    · rw [splitNl, if_neg hc]
      rcases hsp : splitNl rest with _ | ⟨h0, t0⟩
      · exact absurd hsp (splitNl_ne_nil rest)
      · cases t0 with
        | nil =>
          intro hcontra
          rcases List.append_eq_nil.mp hcontra with ⟨_, hr⟩
          simp at hr
        | cons t1 t2 =>
          intro hcontra
          rcases List.append_eq_nil.mp hcontra with ⟨hl, _⟩
          simp at hl

/-- Claim C10: max_line is partial. On the empty string the usize
subtraction underflows (modelled by none); on every non-empty string it
returns the number of lines minus one. -/
theorem claim_C10_max_line :
    max_line [] = none ∧
    ∀ s : List Char, s ≠ [] → max_line s = some ((rustLines s).length - 1) := by
  constructor
  · rfl
  · intro s hs
    rcases hlen : (rustLines s).length with _ | n
    · exact absurd (List.length_eq_zero.mp hlen) (rustLines_ne_nil s hs)
    · rw [max_line, hlen]
      simp

theorem claim_C10_witness : max_line "ab\ncd".toList = some 1 := by
  have h := claim_C10_max_line.2 "ab\ncd".toList (by decide)
  exact h.trans (by decide)

/-- Claim C2: a multi-line absolute range splits into a range on the
start line from the start column to the line length (the offset of the
terminating newline minus the line start offset), one full-line range
per line strictly between, in ascending order, and a final range on the
end line from column 0 to the end column; and the concrete example of
the text with lines foo, bar, baz, aaaaaaaaaaa with the absolute range
from 5 to 10. -/
theorem claim_C2_multiline_split (np : NewlinePositions) (start e : LinePosition)
    (h1 : start.line < e.line) (h2 : e.line < np.positions.length) :
    np.split_line_boundaries start e =
      ⟨start.line, start.column,
        np.positions.getD (start.line + 1) 0 - 1 - np.positions.getD start.line 0⟩ ::
      ((List.range' (start.line + 1) (e.line - (start.line + 1))).map (fun ln =>
        (⟨ln, 0, np.positions.getD (ln + 1) 0 - 1 - np.positions.getD ln 0⟩ : LineRange)) ++
        [⟨e.line, 0, e.column⟩]) ∧
    (NewlinePositions.«from» "foo\nbar\nbaz\naaaaaaaaaaa".toList).from_ranges
      [⟨5, 10⟩] = [⟨1, 1, 3⟩, ⟨2, 0, 2⟩] := by
  constructor
  · rw [NewlinePositions.split_line_boundaries, if_neg (by omega)]
    simp [lineLength]
  · decide

theorem claim_C2_witness :
    (NewlinePositions.«from» "foo\nbar\nbaz\naaaaaaaaaaa".toList).split_line_boundaries
      ⟨1, 1⟩ ⟨2, 2⟩ = [⟨1, 1, 3⟩, ⟨2, 0, 2⟩] := by
  have h := claim_C2_multiline_split
    (NewlinePositions.«from» "foo\nbar\nbaz\naaaaaaaaaaa".toList)
    ⟨1, 1⟩ ⟨2, 2⟩ (by decide) (by decide)
  exact h.1.trans (by decide)

/-- The flattened scan order of relevant_lines: for each change, in
order, the line-relative ranges of its range paired with the opposite
line of that change. -/
def splitPairs (np : NewlinePositions) (changes : List Change) : List MatchedLine :=
  changes.flatMap (fun c =>
    (np.from_ranges [c.range]).map (fun r => (⟨r.line, c.opposite_line⟩ : MatchedLine)))

theorem foldl_relevantStep (opp : Nat) (ranges : List LineRange) :
    ∀ (seen : List Nat) (result : List MatchedLine),
      ranges.foldl (relevantStep opp) (seen, result) =
        (seenAfter (ranges.map (fun r => (⟨r.line, opp⟩ : MatchedLine))) seen,
         result ++ firstOccByLine (ranges.map (fun r => (⟨r.line, opp⟩ : MatchedLine))) seen) := by
  induction ranges with
  | nil => intro seen result; simp [seenAfter, firstOccByLine]
  | cons r rs ih =>
    intro seen result
    rw [List.foldl_cons]
    by_cases h : r.line ∈ seen
    · rw [show relevantStep opp (seen, result) r = (seen, result) from by
        simp [relevantStep, h]]
      rw [ih]
      simp [seenAfter, firstOccByLine, h]
    · rw [show relevantStep opp (seen, result) r =
        (r.line :: seen, result ++ [⟨r.line, opp⟩]) from by simp [relevantStep, h]]
      rw [ih]
      simp [seenAfter, firstOccByLine, h]

theorem seenAfter_append (a b : List MatchedLine) :
    ∀ seen, seenAfter (a ++ b) seen = seenAfter b (seenAfter a seen) := by
  induction a with
  | nil => intro seen; simp [seenAfter]
  | cons m ms ih =>
    intro seen
    by_cases h : m.line ∈ seen <;> simp [seenAfter, h, ih]

theorem firstOccByLine_append (a b : List MatchedLine) :
    ∀ seen, firstOccByLine (a ++ b) seen =
      firstOccByLine a seen ++ firstOccByLine b (seenAfter a seen) := by
  induction a with
  | nil => intro seen; simp [firstOccByLine, seenAfter]
  | cons m ms ih =>
    intro seen
    by_cases h : m.line ∈ seen <;> simp [firstOccByLine, seenAfter, h, ih]

theorem relevant_lines_loop (np : NewlinePositions) (changes : List Change) :
    ∀ (seen : List Nat) (result : List MatchedLine),
      changes.foldl (fun acc change =>
        (np.from_ranges [change.range]).foldl (relevantStep change.opposite_line) acc)
        (seen, result) =
      (seenAfter (splitPairs np changes) seen,
       result ++ firstOccByLine (splitPairs np changes) seen) := by
  induction changes with
  | nil => intro seen result; simp [splitPairs, seenAfter, firstOccByLine]
  | cons c cs ih =>
    intro seen result
    rw [List.foldl_cons, foldl_relevantStep, ih]
    rw [show splitPairs np (c :: cs) =
      (np.from_ranges [c.range]).map (fun r => (⟨r.line, c.opposite_line⟩ : MatchedLine)) ++
        splitPairs np cs from by simp [splitPairs]]
    rw [seenAfter_append, firstOccByLine_append, List.append_assoc]

theorem firstOccByLine_nodup (l : List MatchedLine) :
    ∀ seen : List Nat,
      ((firstOccByLine l seen).map MatchedLine.line).Nodup ∧
      ∀ x ∈ (firstOccByLine l seen).map MatchedLine.line, x ∉ seen := by
  induction l with
  | nil => intro seen; simp [firstOccByLine]
  | cons m ms ih =>
    intro seen
    by_cases h : m.line ∈ seen
    · rw [show firstOccByLine (m :: ms) seen = firstOccByLine ms seen from by
        simp [firstOccByLine, h]]
      exact ih seen
    · rw [show firstOccByLine (m :: ms) seen = m :: firstOccByLine ms (m.line :: seen) from by
        simp [firstOccByLine, h]]
      rw [List.map_cons, List.nodup_cons]
      refine ⟨⟨?_, (ih (m.line :: seen)).1⟩, ?_⟩
      · intro hmem
        exact (ih (m.line :: seen)).2 m.line hmem (List.mem_cons_self m.line seen)
      · intro x hx
        rcases List.mem_cons.mp hx with rfl | hx'
        · exact h
        · intro hseen
          exact (ih (m.line :: seen)).2 x hx' (List.mem_cons_of_mem _ hseen)

/-- Claim C3: relevant_lines emits no duplicate line values, and equals
the first-occurrence deduplication (by line) of the left-to-right scan
of the changes, each change contributing its split ranges in range
order paired with its own opposite line. -/
theorem claim_C3_relevant_lines_unique_first_occurrence
    (changes : List Change) (s : List Char) :
    relevant_lines changes s =
      firstOccByLine (splitPairs (NewlinePositions.«from» s) changes) [] ∧
    ((relevant_lines changes s).map MatchedLine.line).Nodup := by
  have h := relevant_lines_loop (NewlinePositions.«from» s) changes [] []
  have h2 : relevant_lines changes s =
      firstOccByLine (splitPairs (NewlinePositions.«from» s) changes) [] := by
    rw [relevant_lines]
    rw [h]
    rfl
  refine ⟨h2, ?_⟩
  rw [h2]
  exact (firstOccByLine_nodup _ []).1

/- Lemmas about add_context. -/

theorem pushIfNew_eq_none (off : Int) (res : List MatchedLine) (i : Nat)
    (hres : res.getLast? = none) :
    pushIfNew off res i = res ++ [⟨i, (max ((i : Int) + off) 0).toNat⟩] := by
  rw [pushIfNew, hres]

theorem pushIfNew_eq_some (off : Int) (res : List MatchedLine) (i : Nat)
    (last : MatchedLine) (hres : res.getLast? = some last) :
    pushIfNew off res i =
      if last.line < i then res ++ [⟨i, (max ((i : Int) + off) 0).toNat⟩]
      else res := by
  rw [pushIfNew, hres]

theorem mem_pushIfNew {off : Int} {res : List MatchedLine} {i : Nat} {out : MatchedLine}
    (h : out ∈ pushIfNew off res i) :
    out ∈ res ∨ out = ⟨i, (max ((i : Int) + off) 0).toNat⟩ := by
  rcases hres : res.getLast? with _ | last
  · rw [pushIfNew_eq_none off res i hres] at h
    rcases List.mem_append.mp h with h1 | h1
    · exact Or.inl h1
    · simp at h1
      exact Or.inr h1
  · rw [pushIfNew_eq_some off res i last hres] at h
    by_cases hlt : last.line < i
    · rw [if_pos hlt] at h
      rcases List.mem_append.mp h with h1 | h1
      · exact Or.inl h1
      · simp at h1
        exact Or.inr h1
    · rw [if_neg hlt] at h
      exact Or.inl h

theorem mem_foldl_pushIfNew {off : Int} (l : List Nat) :
    ∀ {res : List MatchedLine} {out : MatchedLine},
      out ∈ l.foldl (pushIfNew off) res →
      out ∈ res ∨ ∃ i ∈ l, out = ⟨i, (max ((i : Int) + off) 0).toNat⟩ := by
  induction l with
  | nil => intro res out h; exact Or.inl h
  | cons i l' ih =>
    intro res out h
    rw [List.foldl_cons] at h
    rcases ih h with h1 | ⟨j, hj, rfl⟩
    · rcases mem_pushIfNew h1 with h2 | h2
      · exact Or.inl h2
      · exact Or.inr ⟨i, List.mem_cons_self i l', h2⟩
    · exact Or.inr ⟨j, List.mem_cons_of_mem _ hj, rfl⟩

theorem mem_contextWindow {ctx maxl : Nat} {m : MatchedLine} {i : Nat}
    (h : i ∈ contextWindow ctx maxl m) :
    m.line - ctx ≤ i ∧ i ≤ m.line + ctx ∧ i ≤ maxl := by
  rw [contextWindow, List.mem_range'_1] at h
  omega

theorem mem_add_context_aux (ctx maxl : Nat) (ms : List MatchedLine) :
    ∀ {res : List MatchedLine} {out : MatchedLine},
      out ∈ ms.foldl (fun result m => (contextWindow ctx maxl m).foldl
        (pushIfNew ((m.opposite_line : Int) - (m.line : Int))) result) res →
      out ∈ res ∨ ∃ m ∈ ms,
        m.line - ctx ≤ out.line ∧ out.line ≤ m.line + ctx ∧ out.line ≤ maxl ∧
        out.opposite_line =
          (max ((out.line : Int) + ((m.opposite_line : Int) - (m.line : Int))) 0).toNat := by
  induction ms with
  | nil => intro res out h; exact Or.inl h
  | cons m ms' ih =>
    intro res out h
    rw [List.foldl_cons] at h
    rcases ih h with h1 | ⟨m', hm', hp⟩
    · rcases mem_foldl_pushIfNew _ h1 with h2 | ⟨i, hi, rfl⟩
      · exact Or.inl h2
      · right
        refine ⟨m, List.mem_cons_self _ _, ?_⟩
        have hb := mem_contextWindow hi
        exact ⟨hb.1, hb.2.1, hb.2.2, rfl⟩
    · exact Or.inr ⟨m', List.mem_cons_of_mem _ hm', hp⟩

theorem mem_add_context {lines : List MatchedLine} {ctx maxl : Nat} {out : MatchedLine}
    (h : out ∈ add_context lines ctx maxl) :
    ∃ m ∈ lines, m.line - ctx ≤ out.line ∧ out.line ≤ m.line + ctx ∧ out.line ≤ maxl ∧
      out.opposite_line =
        (max ((out.line : Int) + ((m.opposite_line : Int) - (m.line : Int))) 0).toNat := by
  rw [add_context] at h
  rcases mem_add_context_aux ctx maxl lines h with h1 | h2
  · simp at h1
  · exact h2

theorem chain'_pushIfNew (off : Int) (res : List MatchedLine) (i : Nat)
    (h : List.Chain' (· < ·) (res.map MatchedLine.line)) :
    List.Chain' (· < ·) ((pushIfNew off res i).map MatchedLine.line) := by
  rcases hres : res.getLast? with _ | last
  · rw [pushIfNew_eq_none off res i hres]
    have hnil : res = [] := List.getLast?_eq_none_iff.mp hres
    subst hnil
    simp
  · rw [pushIfNew_eq_some off res i last hres]
    by_cases hlt : last.line < i
    · rw [if_pos hlt, List.map_append, List.chain'_append]
      refine ⟨h, by simp, ?_⟩
      intro x hx y hy
      rw [List.getLast?_map, hres] at hx
      simp at hx hy
      omega
    · rw [if_neg hlt]
      exact h

theorem chain'_foldl_pushIfNew (off : Int) (l : List Nat) :
    ∀ res : List MatchedLine, List.Chain' (· < ·) (res.map MatchedLine.line) →
      List.Chain' (· < ·) ((l.foldl (pushIfNew off) res).map MatchedLine.line) := by
  induction l with
  | nil => intro res h; exact h
  | cons i l' ih =>
    intro res h
    rw [List.foldl_cons]
    exact ih _ (chain'_pushIfNew off res i h)

theorem chain'_add_context_aux (ctx maxl : Nat) (lines : List MatchedLine) :
    ∀ res : List MatchedLine, List.Chain' (· < ·) (res.map MatchedLine.line) →
      List.Chain' (· < ·) ((lines.foldl (fun result m =>
        (contextWindow ctx maxl m).foldl
          (pushIfNew ((m.opposite_line : Int) - (m.line : Int))) result) res).map
            MatchedLine.line) := by
  induction lines with
  | nil => intro res h; exact h
  | cons m ms ih =>
    intro res h
    rw [List.foldl_cons]
    exact ih _ (chain'_foldl_pushIfNew _ _ _ h)

/-- Claim C4: add_context output is strictly ascending in line and
duplicate free; every output line lies in the context window
[max(0, m.line - context), min(m.line + context, max_line)] of some
input matched line m; and the concrete run on matched lines 5, 12, 14
with context 2 and max_line 20 yields lines 3 to 7, then 10 to 16,
each with opposite equal to line. -/
theorem claim_C4_add_context_windows (lines : List MatchedLine) (context maxl : Nat)
    (out : MatchedLine) (h : out ∈ add_context lines context maxl) :
    List.Chain' (· < ·) ((add_context lines context maxl).map MatchedLine.line) ∧
    ((add_context lines context maxl).map MatchedLine.line).Nodup ∧
    (∃ m ∈ lines, m.line - context ≤ out.line ∧ out.line ≤ m.line + context ∧
      out.line ≤ maxl) ∧
    add_context [⟨5, 5⟩, ⟨12, 12⟩, ⟨14, 14⟩] 2 20 =
      [⟨3, 3⟩, ⟨4, 4⟩, ⟨5, 5⟩, ⟨6, 6⟩, ⟨7, 7⟩, ⟨10, 10⟩, ⟨11, 11⟩, ⟨12, 12⟩,
       ⟨13, 13⟩, ⟨14, 14⟩, ⟨15, 15⟩, ⟨16, 16⟩] := by
  have hchain : List.Chain' (· < ·) ((add_context lines context maxl).map MatchedLine.line) := by
    rw [add_context]
    exact chain'_add_context_aux context maxl lines [] (by simp)
  refine ⟨hchain, ?_, ?_, by decide⟩
  · exact (List.chain'_iff_pairwise.mp hchain).imp Nat.ne_of_lt
  · rcases mem_add_context h with ⟨m, hm, h1, h2, h3, _⟩
    exact ⟨m, hm, h1, h2, h3⟩

theorem claim_C4_witness :
    ∃ m ∈ [(⟨5, 5⟩ : MatchedLine), ⟨12, 12⟩, ⟨14, 14⟩],
      m.line - 2 ≤ 3 ∧ 3 ≤ m.line + 2 ∧ 3 ≤ 20 :=
  (claim_C4_add_context_windows [⟨5, 5⟩, ⟨12, 12⟩, ⟨14, 14⟩] 2 20 ⟨3, 3⟩ (by decide)).2.2.1

/-- Claim C6: the opposite line of every emitted context line i equals
max(0, i + (m.opposite_line - m.line)) in signed arithmetic for some
input matched line m, clamped below at zero with no upper clamp; the
concrete runs show clamping at zero (input line 2 opposite 0) and
opposite lines beyond the input opposite value (input line 0
opposite 7 produces opposite 9). -/
theorem claim_C6_opposite_clamped_below (lines : List MatchedLine) (context maxl : Nat)
    (out : MatchedLine) (h : out ∈ add_context lines context maxl) :
    (∃ m ∈ lines, out.opposite_line =
      (max ((out.line : Int) + ((m.opposite_line : Int) - (m.line : Int))) 0).toNat) ∧
    add_context [⟨2, 0⟩] 2 10 = [⟨0, 0⟩, ⟨1, 0⟩, ⟨2, 0⟩, ⟨3, 1⟩, ⟨4, 2⟩] ∧
    add_context [⟨0, 7⟩] 2 10 = [⟨0, 7⟩, ⟨1, 8⟩, ⟨2, 9⟩] := by
  refine ⟨?_, by decide, by decide⟩
  rcases mem_add_context h with ⟨m, hm, _, _, _, h4⟩
  exact ⟨m, hm, h4⟩

theorem claim_C6_witness :
    ∃ m ∈ [(⟨2, 0⟩ : MatchedLine)],
      (2 : Nat) = (max ((4 : Int) + ((m.opposite_line : Int) - (m.line : Int))) 0).toNat :=
  (claim_C6_opposite_clamped_below [⟨2, 0⟩] 2 10 ⟨4, 2⟩ (by decide)).1

/- Zero-context behavior of add_context. -/

theorem contextWindow_zero {maxl : Nat} {m : MatchedLine} (h : m.line ≤ maxl) :
    contextWindow 0 maxl m = [m.line] := by
  rw [contextWindow]
  have h1 : (max 0 ((m.line : Int) - ((0 : Nat) : Int))).toNat = m.line := by omega
  have h2 : min (m.line + 0) maxl = m.line := by omega
  rw [h1, h2]
  rw [show m.line + 1 - m.line = 1 from by omega]
  exact List.range'_one

theorem add_context_zero_aux (maxl : Nat) (ms : List MatchedLine) :
    ∀ res : List MatchedLine,
      List.Chain' (· < ·) (ms.map MatchedLine.line) →
      (∀ m ∈ ms, m.line ≤ maxl) →
      (∀ ll ∈ res.getLast?, ∀ first ∈ ms.head?, ll.line < first.line) →
      ms.foldl (fun result m => (contextWindow 0 maxl m).foldl
        (pushIfNew ((m.opposite_line : Int) - (m.line : Int))) result) res = res ++ ms := by
  induction ms with
  | nil => intro res _ _ _; simp
  | cons m ms' ih =>
    intro res hchain hmax hlast
    rw [List.foldl_cons]
    rw [contextWindow_zero (hmax m (List.mem_cons_self m ms'))]
    rw [List.foldl_cons, List.foldl_nil]
    have hopp : (max ((m.line : Int) + ((m.opposite_line : Int) - (m.line : Int))) 0).toNat =
        m.opposite_line := by omega
    have hpush : pushIfNew ((m.opposite_line : Int) - (m.line : Int)) res m.line =
        res ++ [m] := by
      rcases hres : res.getLast? with _ | last
      · rw [pushIfNew_eq_none _ res _ hres, hopp]
      · rw [pushIfNew_eq_some _ res _ last hres]
        have hlt : last.line < m.line := by
          apply hlast last _ m
          · simp
          · rw [hres]
            rfl
        rw [if_pos hlt, hopp]
    rw [hpush]
    have hchain' : List.Chain' (· < ·) (ms'.map MatchedLine.line) := by
      rw [List.map_cons] at hchain
      exact hchain.tail
    have hlast' : ∀ ll ∈ (res ++ [m]).getLast?, ∀ first ∈ ms'.head?,
        ll.line < first.line := by
      intro ll hll first hfirst
      rw [List.getLast?_concat] at hll
      have hll' : m = ll := by simpa using hll
      subst hll'
      rw [List.map_cons] at hchain
      have hc := List.chain'_cons'.mp hchain
      have : first.line ∈ (ms'.map MatchedLine.line).head? := by
        rw [List.head?_map]
        exact Option.mem_map_of_mem MatchedLine.line hfirst
      exact hc.1 first.line this
    rw [ih (res ++ [m]) hchain' (fun m' hm' => hmax m' (List.mem_cons_of_mem m hm')) hlast']
    simp

/-- Claim C5 counterexample: zero-context identity fails as stated for
every max_line. A matched line beyond max_line is dropped, and with a
repeated line the duplicate is dropped. -/
theorem claim_C5_counterexample :
    add_context [⟨1, 1⟩] 0 0 ≠ [⟨1, 1⟩] ∧
    add_context [⟨5, 5⟩, ⟨5, 5⟩] 0 20 ≠ [⟨5, 5⟩, ⟨5, 5⟩] :=
  ⟨by decide, by decide⟩

/-- Claim C5, amended: for every sequence of MatchedLine strictly
ascending in line whose every line is at most max_line, add_context
with context 0 returns the input sequence unchanged. -/
theorem claim_C5_zero_context_identity (lines : List MatchedLine) (maxl : Nat)
    (h1 : List.Chain' (· < ·) (lines.map MatchedLine.line))
    (h2 : ∀ m ∈ lines, m.line ≤ maxl) :
    add_context lines 0 maxl = lines := by
  rw [add_context]
  rw [add_context_zero_aux maxl lines [] h1 h2 (by simp)]
  simp

theorem claim_C5_witness :
    add_context [⟨5, 7⟩, ⟨12, 1⟩] 0 20 = [⟨5, 7⟩, ⟨12, 1⟩] :=
  claim_C5_zero_context_identity [⟨5, 7⟩, ⟨12, 1⟩] 20 (by simp) (by decide)

/- Lemmas about enforce_length. -/

theorem foldl_fit_append (w : Nat) (L : List (List Char)) :
    ∀ init : List Char,
      L.foldl (fun result line => result ++ fitLine w line ++ ['\n']) init =
        init ++ L.flatMap (fun line => fitLine w line ++ ['\n']) := by
  induction L with
  | nil => intro init; simp
  | cons l L' ih =>
    intro init
    rw [List.foldl_cons, ih]
    simp [List.append_assoc]

theorem enforce_length_eq (s : List Char) (w : Nat) :
    enforce_length s w = (rustLines s).flatMap (fun line => fitLine w line ++ ['\n']) := by
  rw [enforce_length, foldl_fit_append]
  simp

theorem fitLine_length (w : Nat) (l : List Char) : (fitLine w l).length = w := by
  rw [fitLine]
  split
  · simp
    omega
  · simp
    omega

/-- Claim C7: enforce_length emits, for each input line in order, that
line truncated to exactly line_length characters when longer, or
right-padded with spaces to exactly line_length characters otherwise,
followed by a newline; every fitted line is exactly line_length
characters, counted in raw character units. -/
theorem claim_C7_enforce_length_exact_width (s : List Char) (w : Nat) (l : List Char) :
    enforce_length s w = (rustLines s).flatMap (fun line => fitLine w line ++ ['\n']) ∧
    (fitLine w l).length = w ∧
    enforce_length "foo\nbar\n".toList 5 = "foo  \nbar  \n".toList ∧
    enforce_length "foobar\nbarbaz\n".toList 3 = "foo\nbar\n".toList :=
  ⟨enforce_length_eq s w, fitLine_length w l, by decide, by decide⟩

/- Lemmas about splitNl, stripCR and rustLines. -/

theorem stripCR_eq_none {l : List Char} (hl : l.getLast? = none) : stripCR l = l := by
  rw [stripCR, hl]

theorem stripCR_eq_some {l : List Char} {x : Char} (hl : l.getLast? = some x) :
    stripCR l = if x = '\r' then l.dropLast else l := by
  rw [stripCR, hl]

theorem stripCR_subset {l : List Char} {c : Char} (h : c ∈ stripCR l) : c ∈ l := by
  rcases hl : l.getLast? with _ | x
  · rw [stripCR_eq_none hl] at h
    exact h
  · rw [stripCR_eq_some hl] at h
    split at h
    · exact List.Sublist.mem h (List.dropLast_sublist l)
    · exact h

theorem mem_splitNl_no_newline (s : List Char) :
    ∀ l ∈ splitNl s, '\n' ∉ l := by
  induction s with
  | nil =>
    intro l hl
    simp [splitNl] at hl
    subst hl
    simp
  | cons c rest ih =>
    intro l hl
    rw [splitNl] at hl
    by_cases hc : c = '\n'
    · rw [if_pos hc] at hl
      rcases List.mem_cons.mp hl with rfl | hl'
      · simp
      · exact ih l hl'
    · rw [if_neg hc] at hl
      rcases hsp : splitNl rest with _ | ⟨h0, t0⟩
      · exact absurd hsp (splitNl_ne_nil rest)
      · rw [hsp] at hl
        rcases List.mem_cons.mp hl with rfl | hl'
        · intro hmem
          rcases List.mem_cons.mp hmem with heq | hmem'
          · exact hc heq.symm
          · exact ih h0 (by rw [hsp]; exact List.mem_cons_self _ _) hmem'
        · exact ih l (by rw [hsp]; exact List.mem_cons_of_mem _ hl')

theorem mem_splitNl_subset (s : List Char) :
    ∀ l ∈ splitNl s, ∀ c ∈ l, c ∈ s := by
  induction s with
  | nil =>
    intro l hl c hc
    simp [splitNl] at hl
    subst hl
    simp at hc
  | cons a rest ih =>
    intro l hl c hc
    rw [splitNl] at hl
    by_cases ha : a = '\n'
    · rw [if_pos ha] at hl
      rcases List.mem_cons.mp hl with rfl | hl'
      · simp at hc
      · exact List.mem_cons_of_mem a (ih l hl' c hc)
    · rw [if_neg ha] at hl
      rcases hsp : splitNl rest with _ | ⟨h0, t0⟩
      · exact absurd hsp (splitNl_ne_nil rest)
      · rw [hsp] at hl
        rcases List.mem_cons.mp hl with rfl | hl'
        · rcases List.mem_cons.mp hc with rfl | hc'
          · exact List.mem_cons_self c rest
          · exact List.mem_cons_of_mem a
              (ih h0 (by rw [hsp]; exact List.mem_cons_self _ _) c hc')
        · exact List.mem_cons_of_mem a
            (ih l (by rw [hsp]; exact List.mem_cons_of_mem _ hl') c hc)

theorem rustLines_eq_of_last_nil {s : List Char} (hl : (splitNl s).getLast? = some []) :
    rustLines s = (splitNl s).dropLast.map stripCR := by
  rw [rustLines, hl]
  simp

theorem rustLines_eq_of_last_cons {s : List Char} {c : Char} {l : List Char}
    (hl : (splitNl s).getLast? = some (c :: l)) :
    rustLines s = (splitNl s).dropLast.map stripCR ++ [c :: l] := by
  rw [rustLines, hl]

theorem rustLines_from_segs {s : List Char} {line : List Char}
    (hline : line ∈ rustLines s) :
    ∃ seg ∈ splitNl s, line = stripCR seg ∨ line = seg := by
  rcases hlast : (splitNl s).getLast? with _ | l0
  · exact absurd (List.getLast?_eq_none_iff.mp hlast) (splitNl_ne_nil s)
  · cases l0 with
    | nil =>
      rw [rustLines_eq_of_last_nil hlast] at hline
      rcases List.mem_map.mp hline with ⟨seg, hseg, rfl⟩
      exact ⟨seg, List.Sublist.mem hseg (List.dropLast_sublist _), Or.inl rfl⟩
    | cons c0 l0' =>
      rw [rustLines_eq_of_last_cons hlast] at hline
      rcases List.mem_append.mp hline with h1 | h1
      · rcases List.mem_map.mp h1 with ⟨seg, hseg, rfl⟩
        exact ⟨seg, List.Sublist.mem hseg (List.dropLast_sublist _), Or.inl rfl⟩
      · have h2 : line = c0 :: l0' := by simpa using h1
        exact ⟨c0 :: l0', List.mem_of_mem_getLast? hlast, Or.inr h2⟩

theorem rustLines_chars {s : List Char} {line : List Char} (hline : line ∈ rustLines s) :
    ∀ c ∈ line, c ∈ s := by
  intro c hc
  rcases rustLines_from_segs hline with ⟨seg, hseg, hcase⟩
  rcases hcase with heq | heq
  · rw [heq] at hc
    exact mem_splitNl_subset s seg hseg c (stripCR_subset hc)
  · rw [heq] at hc
    exact mem_splitNl_subset s seg hseg c hc

theorem rustLines_no_newline {s : List Char} {line : List Char}
    (hline : line ∈ rustLines s) : '\n' ∉ line := by
  intro hmem
  rcases rustLines_from_segs hline with ⟨seg, hseg, hcase⟩
  rcases hcase with heq | heq
  · rw [heq] at hmem
    exact mem_splitNl_no_newline s seg hseg (stripCR_subset hmem)
  · rw [heq] at hmem
    exact mem_splitNl_no_newline s seg hseg hmem

theorem fitLine_eq_of_length {w : Nat} {l : List Char} (h : l.length = w) :
    fitLine w l = l := by
  rw [fitLine, if_neg (by omega)]
  rw [h]
  simp

theorem fitLine_chars {w : Nat} {l : List Char} {c : Char} (h : c ∈ fitLine w l) :
    c ∈ l ∨ c = ' ' := by
  rw [fitLine] at h
  split at h
  · exact Or.inl (List.take_subset _ _ h)
  · rcases List.mem_append.mp h with h1 | h1
    · exact Or.inl h1
    · exact Or.inr (List.eq_of_mem_replicate h1)

theorem splitNl_append_nl (r : List Char) :
    ∀ a : List Char, '\n' ∉ a → splitNl (a ++ '\n' :: r) = a :: splitNl r := by
  intro a
  induction a with
  | nil =>
    intro _
    rw [List.nil_append, splitNl, if_pos rfl]
  | cons c a' ih =>
    intro ha
    have hc : ¬ c = '\n' := fun h => ha (by rw [h]; exact List.mem_cons_self _ _)
    have ha' : '\n' ∉ a' := fun h => ha (List.mem_cons_of_mem c h)
    rw [List.cons_append, splitNl, if_neg hc, ih ha']

theorem splitNl_flatMap (chunks : List (List Char)) :
    (∀ c ∈ chunks, '\n' ∉ c) →
    splitNl (chunks.flatMap (fun c => c ++ ['\n'])) = chunks ++ [[]] := by
  induction chunks with
  | nil =>
    intro _
    simp [splitNl]
  | cons ch chs ih =>
    intro h
    rw [List.flatMap_cons]
    rw [show (ch ++ ['\n']) ++ chs.flatMap (fun c => c ++ ['\n']) =
      ch ++ '\n' :: chs.flatMap (fun c => c ++ ['\n']) from by simp]
    rw [splitNl_append_nl _ ch (h ch (List.mem_cons_self _ _))]
    rw [ih (fun c hc => h c (List.mem_cons_of_mem _ hc))]
    rfl

theorem rustLines_flatMap (chunks : List (List Char))
    (hn : ∀ c ∈ chunks, '\n' ∉ c) (hr : ∀ c ∈ chunks, '\r' ∉ c) :
    rustLines (chunks.flatMap (fun c => c ++ ['\n'])) = chunks := by
  rw [rustLines, splitNl_flatMap chunks hn]
  rw [List.dropLast_concat, List.getLast?_concat]
  have hmap : chunks.map stripCR = chunks := by
    have hcongr : ∀ c ∈ chunks, stripCR c = c := by
      intro c hc
      rcases hlc : c.getLast? with _ | x
      · exact stripCR_eq_none hlc
      · rw [stripCR_eq_some hlc]
        exact if_neg (fun hx : x = '\r' => hr c hc (hx ▸ List.mem_of_mem_getLast? hlc))
    calc chunks.map stripCR = chunks.map id := List.map_congr_left hcongr
      _ = chunks := List.map_id chunks
  rw [hmap]
  simp

theorem flatMap_congr_mem {α β : Type} (f g : α → List β) :
    ∀ l : List α, (∀ x ∈ l, f x = g x) → l.flatMap f = l.flatMap g := by
  intro l
  induction l with
  | nil => intro _; rfl
  | cons x xs ih =>
    intro h
    rw [List.flatMap_cons, List.flatMap_cons, h x (List.mem_cons_self _ _),
      ih (fun y hy => h y (List.mem_cons_of_mem _ hy))]

theorem flatMap_fitLine (w : Nat) (L : List (List Char)) :
    L.flatMap (fun line => fitLine w line ++ ['\n']) =
      (L.map (fitLine w)).flatMap (fun c => c ++ ['\n']) := by
  induction L with
  | nil => rfl
  | cons l L' ih => simp [ih]

/-- Claim C8 counterexample: idempotence fails as stated. The line of
the input a CR has length 2 and is kept verbatim with a newline
appended; on the second pass the CR is stripped as part of the CRLF
line ending, and the line is padded with a space instead. -/
theorem claim_C8_counterexample :
    enforce_length (enforce_length "a\r".toList 2) 2 ≠ enforce_length "a\r".toList 2 := by
  decide

/-- Claim C8, amended: for every input without carriage returns,
re-running enforce_length on its own output with the same width is a
no-op. -/
theorem claim_C8_enforce_length_idempotent (s : List Char) (w : Nat) (h : '\r' ∉ s) :
    enforce_length (enforce_length s w) w = enforce_length s w := by
  have hn : ∀ c ∈ (rustLines s).map (fitLine w), '\n' ∉ c := by
    intro c hc
    rcases List.mem_map.mp hc with ⟨line, hline, rfl⟩
    intro hmem
    rcases fitLine_chars hmem with h1 | h1
    · exact rustLines_no_newline hline h1
    · exact absurd h1 (by decide)
  have hr : ∀ c ∈ (rustLines s).map (fitLine w), '\r' ∉ c := by
    intro c hc
    rcases List.mem_map.mp hc with ⟨line, hline, rfl⟩
    intro hmem
    rcases fitLine_chars hmem with h1 | h1
    · exact h (rustLines_chars hline _ h1)
    · exact absurd h1 (by decide)
  have e1 : enforce_length s w =
      ((rustLines s).map (fitLine w)).flatMap (fun c => c ++ ['\n']) := by
    rw [enforce_length_eq, flatMap_fitLine]
  have e2 : rustLines (enforce_length s w) = (rustLines s).map (fitLine w) := by
    rw [e1]
    exact rustLines_flatMap _ hn hr
  rw [enforce_length_eq (enforce_length s w) w, e2, e1]
  apply flatMap_congr_mem
  intro c hc
  rcases List.mem_map.mp hc with ⟨line, hline, rfl⟩
  rw [fitLine_eq_of_length (fitLine_length w line)]

theorem claim_C8_witness :
    enforce_length (enforce_length "foo\nbar".toList 5) 5 =
      enforce_length "foo\nbar".toList 5 :=
  claim_C8_enforce_length_idempotent "foo\nbar".toList 5 (by decide)
